import Mathlib

/-!
# Verification of the MusicJam Scheduler Pro scheduling core

Shallow embedding of the scheduling logic of the repository
`dxaginfo/musicjam-scheduler-pro`:

* `checkForConflicts`, `addAttendee` — from `src/server/src/models/Rehearsal.js`;
* `isMember` / `isOwner` / `removeMember` / `updateMemberRole` — from the
  Group model (Mongoose `GroupSchema` methods);
* the RecurrenceExpander (`expand`) and AvailabilityAggregator
  (`intersectAvailability`, `rankCandidates`) are described in the design
  specification but are not present in the repository's source tree; they are
  modelled from the spec, each marked `Modelled from the spec:` in its doc
  comment.

Timestamps are modelled as natural numbers counting minutes since the Unix
epoch (1970-01-01T00:00, a Thursday), so `weekday t = (t / 1440 + 4) % 7`
agrees with JavaScript `Date.getDay()` (0 = Sunday).
-/

namespace MusicJam

/-- A time interval `{start, end}`; `end > start` is the documented invariant
(`end` renamed `stop`, a Lean keyword). -/
structure TimeInterval where
  start : Nat
  stop : Nat
deriving DecidableEq, Repr

/-- A persisted rehearsal row, restricted to the fields the conflict query
reads: `_id`, `venueId`, `startDateTime`, `endDateTime`
(`src/server/src/models/Rehearsal.js`, `RehearsalSchema`). `venueId` is
optional in the schema. -/
structure Booking where
  id : Nat
  venueId : Option Nat
  startDateTime : Nat
  endDateTime : Nat
deriving DecidableEq, Repr

/-- The interval-overlap test of the conflict query, half-open semantics:
the Mongo condition `startDateTime: {$lt: endDateTime}, endDateTime: {$gt:
startDateTime}` instantiated with `cand` the candidate and `ex` the existing
interval reads `cand.start < ex.end AND cand.end > ex.start`. -/
def overlaps (cand ex : TimeInterval) : Bool :=
  cand.start < ex.stop && cand.stop > ex.start

/-- `RehearsalSchema.statics.checkForConflicts(venueId, startDateTime,
endDateTime, excludeId = null)` (`Rehearsal.js` lines 214–234): returns
`false` at once when `venueId` is absent; otherwise queries the store for
rehearsals at that venue whose interval overlaps the candidate, excluding
`_id = excludeId` when given, and returns whether any matched
(`conflicts.length > 0`). The store read (`this.find(query)`) is modelled by
filtering an explicit list of bookings. -/
def checkForConflicts (store : List Booking) (venueId : Option Nat)
    (startDateTime endDateTime : Nat) (excludeId : Option Nat) : Bool :=
  match venueId with
  | none => false
  | some v =>
    let conflicts := store.filter fun r =>
      r.venueId == some v &&
      overlaps ⟨startDateTime, endDateTime⟩ ⟨r.startDateTime, r.endDateTime⟩ &&
      (match excludeId with
       | none => true
       | some ex => !(r.id == ex))
    decide (conflicts.length > 0)

end MusicJam

namespace MusicJam

/-- One entry of `GroupSchema.members` (`MemberSchema`): a user reference and
a role drawn from the enum `['member', 'admin', 'owner']`; `instruments` and
`joinedAt` are irrelevant to the membership operations and omitted. -/
structure Member where
  userId : Nat
  role : String
deriving DecidableEq, Repr

/-- The Group model restricted to its `members` array. -/
structure Group where
  members : List Member
deriving DecidableEq, Repr

/-- `GroupSchema.methods.isMember`: some member entry has this `userId`. -/
def isMember (g : Group) (userId : Nat) : Bool :=
  g.members.any fun m => m.userId == userId

/-- `GroupSchema.methods.isOwner`: some member entry has this `userId` with
role `'owner'`. -/
def isOwner (g : Group) (userId : Nat) : Bool :=
  g.members.any fun m => m.userId == userId && m.role == "owner"

/-- `GroupSchema.methods.removeMember`: returns `false` when the user is not
a member or is the owner; otherwise filters the entry out and returns `true`.
The JS method mutates `this.members`; modelled as returning the new group
together with the boolean result. -/
def removeMember (g : Group) (userId : Nat) : Group × Bool :=
  if !(isMember g userId) then (g, false)
  else if isOwner g userId then (g, false)
  else ({ members := g.members.filter fun m => !(m.userId == userId) }, true)

/-- `GroupSchema.methods.updateMemberRole`: returns `false` when the user is
not a member, or is the owner and `newRole ≠ 'owner'`; otherwise maps the
matching entries to the new role and returns `true`. -/
def updateMemberRole (g : Group) (userId : Nat) (newRole : String) :
    Group × Bool :=
  if !(isMember g userId) then (g, false)
  else if isOwner g userId && !(newRole == "owner") then (g, false)
  else ({ members := g.members.map fun m =>
            if m.userId == userId then { m with role := newRole } else m },
        true)

/-- One entry of `RehearsalSchema.attendees` (`AttendeeSchema`): user
reference, status from `['confirmed', 'declined', 'pending']`, optional
response time. -/
structure Attendee where
  userId : Nat
  status : String
  responseTime : Option Nat
deriving DecidableEq, Repr

/-- `RehearsalSchema.methods.addAttendee(userId, status = 'pending')`
(`Rehearsal.js` lines 266–286): if `findIndex` locates an existing entry for
`userId`, that entry's `status` and `responseTime` are updated in place;
otherwise a new entry is pushed, with `responseTime` set only when the status
is not `'pending'`. `now` stands for `new Date()`. The recursion updates the
first matching entry and otherwise appends at the end, exactly as
`findIndex`/`push` do. -/
def addAttendee (attendees : List Attendee) (userId : Nat) (status : String)
    (now : Nat) : List Attendee :=
  match attendees with
  | [] => [{ userId := userId, status := status,
             responseTime := if !(status == "pending") then some now else none }]
  | a :: rest =>
    if a.userId == userId then
      { a with status := status, responseTime := some now } :: rest
    else
      a :: addAttendee rest userId status now

/-- Day-of-week of a timestamp in minutes since the Unix epoch; 0 = Sunday,
matching JavaScript `Date.getDay()` (1970-01-01 was a Thursday, day 4). -/
def weekday (t : Nat) : Nat := (t / 1440 + 4) % 7

/-- `recurringPattern.frequency`, enum `['weekly', 'biweekly', 'monthly']`
(`RecurringPatternSchema`). -/
inductive Frequency
  | weekly
  | biweekly
  | monthly
deriving DecidableEq, Repr

/-- `RecurringPatternSchema` (`Rehearsal.js` lines 89–112): frequency,
optional day of week (required by the schema for weekly/biweekly), repeat
interval, and the date the pattern ends. The schema's `interval` has
`min: 1`, but a supplied value may be non-positive, hence `Int`. -/
structure RecurrencePattern where
  frequency : Frequency
  dayOfWeek : Option Nat
  interval : Int
  endDate : Nat
deriving DecidableEq, Repr

/-- Error kinds of the expander, from the spec's §7. -/
inductive ExpandError
  | invalidPattern
  | occurrenceLimitExceeded
deriving DecidableEq, Repr

/-- A concrete occurrence produced by expansion, tagged with its sequence
index. -/
structure Occurrence where
  index : Nat
  start : Nat
  stop : Nat
deriving DecidableEq, Repr

/-- Gregorian leap-year test. -/
def isLeap (y : Nat) : Bool := y % 4 = 0 && (y % 100 ≠ 0 || y % 400 = 0)

/-- Number of days in a month of a given year. -/
def lastDayOfMonth (y m : Nat) : Nat :=
  if m = 2 then (if isLeap y then 29 else 28)
  else if m = 4 ∨ m = 6 ∨ m = 9 ∨ m = 11 then 30
  else 31

/-- Days since the Unix epoch to a civil `(year, month, day)` (proleptic
Gregorian, valid from the epoch on). -/
def civilFromDays (z0 : Nat) : Nat × Nat × Nat :=
  let z := z0 + 719468
  let era := z / 146097
  let doe := z % 146097
  let yoe := (doe - doe / 1460 + doe / 36524 - doe / 146096) / 365
  let y := yoe + era * 400
  let doy := doe - (365 * yoe + yoe / 4 - yoe / 100)
  let mp := (5 * doy + 2) / 153
  let d := doy - (153 * mp + 2) / 5 + 1
  let m := if mp < 10 then mp + 3 else mp - 9
  (if m ≤ 2 then y + 1 else y, m, d)

/-- Civil `(year, month, day)` back to days since the Unix epoch. -/
def daysFromCivil (y m d : Nat) : Nat :=
  let y1 := if m ≤ 2 then y - 1 else y
  let era := y1 / 400
  let yoe := y1 % 400
  let mp := if 2 < m then m - 3 else m + 9
  let doy := (153 * mp + 2) / 5 + d - 1
  let doe := yoe * 365 + yoe / 4 - yoe / 100 + doy
  era * 146097 + doe - 719468

/-- Modelled from the spec: `monthly` advances "by `interval` calendar
months, preserving day-of-month from the base start (clamped to the last
valid day if the target month is shorter)". The repository has no expander
implementation; only `RecurringPatternSchema` exists in `src/`. -/
def addMonths (t n : Nat) : Nat :=
  let days := t / 1440
  let tod := t % 1440
  let c := civilFromDays days
  let months := c.1 * 12 + (c.2.1 - 1) + n
  let y2 := months / 12
  let m2 := months % 12 + 1
  let d2 := min c.2.2 (lastDayOfMonth y2 m2)
  daysFromCivil y2 m2 d2 * 1440 + tod

/-- Modelled from the spec: the first anchor is the base start moved forward
(preserving time of day) to the pattern's `dayOfWeek`; a base already on that
weekday is unchanged. -/
def alignToWeekday (baseStart dow : Nat) : Nat :=
  baseStart + ((dow + 7 - weekday baseStart) % 7) * 1440

/-- Modelled from the spec: start of the `k`-th occurrence after the base.
`weekly` advances by `7 * interval` days on the pattern's `dayOfWeek`;
`biweekly` is weekly with the interval multiplier doubled; `monthly`
advances by `interval` calendar months. -/
def occurrenceStart (p : RecurrencePattern) (baseStart k : Nat) : Nat :=
  match p.frequency with
  | .weekly =>
    alignToWeekday baseStart (p.dayOfWeek.getD (weekday baseStart)) +
      k * (7 * p.interval.toNat * 1440)
  | .biweekly =>
    alignToWeekday baseStart (p.dayOfWeek.getD (weekday baseStart)) +
      k * (14 * p.interval.toNat * 1440)
  | .monthly => addMonths baseStart (k * p.interval.toNat)

/-- Modelled from the spec: a pattern is rejected as `InvalidPattern` when
`interval` is non-positive, `dayOfWeek` is missing for weekly/biweekly, or
`endDate` is before the base start (§7). -/
def validPattern (p : RecurrencePattern) (baseStart : Nat) : Bool :=
  1 ≤ p.interval &&
  (match p.frequency, p.dayOfWeek with
   | .weekly, none => false
   | .biweekly, none => false
   | _, _ => true) &&
  baseStart ≤ p.endDate

/-- The spec's safety cap: "capped at a sane maximum count (e.g. 366
occurrences)". -/
def occurrenceCap : Nat := 366

/-- Modelled from the spec: §4.2 `expand(basePattern, baseStart, baseEnd,
windowStart, windowEnd)`. Validation failures reject with `InvalidPattern`
before any expansion. Occurrences are the successive advanced anchors
(`k = 1, 2, …`, the base occurrence itself is not re-emitted); expansion
stops once a start exceeds `endDate` or `windowEnd`, whichever is earlier,
each occurrence lasts `baseEnd - baseStart` from its start, and only starts
inside `[windowStart, windowEnd]` are kept. Exceeding the safety cap reports
`OccurrenceLimitExceeded`. -/
def expand (p : RecurrencePattern) (baseStart baseEnd windowStart windowEnd : Nat) :
    Except ExpandError (List Occurrence) :=
  if !(validPattern p baseStart) then .error .invalidPattern
  else
    let dur := baseEnd - baseStart
    let stopAt := min p.endDate windowEnd
    let cands := (List.range (occurrenceCap + 1)).map
      fun i => (i + 1, occurrenceStart p baseStart (i + 1))
    let within := cands.takeWhile fun c => c.2 ≤ stopAt
    if within.length > occurrenceCap then .error .occurrenceLimitExceeded
    else .ok ((within.filter fun c => windowStart ≤ c.2).map
      fun c => { index := c.1, start := c.2, stop := c.2 + dur })

/-- Modelled from the spec: intersection of two free-interval lists, each
sorted by start with disjoint intervals (the normal form `freeIntervals`
produces). The sweep keeps the pairwise overlap `[max starts, min stops)`
when non-empty and drops whichever current interval finishes first. The
repository has no AvailabilityAggregator implementation in `src/`. -/
def intersectTwo : List TimeInterval → List TimeInterval → List TimeInterval
  | [], _ => []
  | _ :: _, [] => []
  | a :: as, b :: bs =>
    let s := max a.start b.start
    let e := min a.stop b.stop
    let rest :=
      if a.stop ≤ b.stop then intersectTwo as (b :: bs)
      else intersectTwo (a :: as) bs
    if s < e then ⟨s, e⟩ :: rest else rest
termination_by xs ys => xs.length + ys.length

/-- Modelled from the spec: `intersectAvailability(members,
minDurationMinutes)` intersects all members' free-interval lists and
discards resulting intervals shorter than `minDurationMinutes`; an empty
result is normal data, not an error. -/
def intersectAvailability (members : List (List TimeInterval))
    (minDurationMinutes : Nat) : List TimeInterval :=
  match members with
  | [] => []
  | m :: ms =>
    (ms.foldl intersectTwo m).filter fun i =>
      minDurationMinutes ≤ i.stop - i.start

/-- Modelled from the spec: the ranking order of `rankCandidates` — interval
length descending, start time ascending as tie-break. -/
def rankBefore (i j : TimeInterval) : Prop :=
  j.stop - j.start < i.stop - i.start ∨
    (i.stop - i.start = j.stop - j.start ∧ i.start ≤ j.start)

instance : DecidableRel rankBefore := fun i j => by
  unfold rankBefore; infer_instance

instance : IsTotal TimeInterval rankBefore :=
  ⟨fun i j => by unfold rankBefore; omega⟩

instance : IsTrans TimeInterval rankBefore :=
  ⟨fun i j k hij hjk => by unfold rankBefore at *; omega⟩

/-- Modelled from the spec: `rankCandidates(commonIntervals,
preferredDurationMinutes, limit)` keeps the common intervals long enough for
the preferred duration, orders them by length descending with start
ascending as tie-break, places one earliest-fit slot of the preferred
duration at the start of each, and returns at most `limit` slots. -/
def rankCandidates (commonIntervals : List TimeInterval)
    (preferredDurationMinutes limit : Nat) : List TimeInterval :=
  let eligible := commonIntervals.filter fun i =>
    preferredDurationMinutes ≤ i.stop - i.start
  let ranked := eligible.insertionSort rankBefore
  (ranked.map fun i => ⟨i.start, i.start + preferredDurationMinutes⟩).take limit

/-- A free-interval list in normal form: each interval ends no later than
the next begins. -/
def SortedFree (xs : List TimeInterval) : Prop :=
  xs.Pairwise fun a b => a.stop ≤ b.start

/-- C2: with `venueId` absent the function returns `false` for every store,
candidate interval and `excludeId`, before any store access. -/
theorem checkForConflicts_none (store : List Booking)
    (s e : Nat) (ex : Option Nat) :
    checkForConflicts store none s e ex = false := rfl

/-- C3: the overlap predicate used by conflict detection is symmetric. -/
theorem overlaps_symm (a b : TimeInterval) :
    overlaps a b = overlaps b a := by
  simp only [overlaps, gt_iff_lt, Bool.and_comm]

/-- C1: `checkForConflicts` at a present venue returns `true` iff some stored
booking at that venue, other than the one identified by `excludeId`, overlaps
the candidate under half-open semantics (`s < r.endDateTime ∧ e >
r.startDateTime`); moreover an existing interval that merely touches the
candidate at an endpoint never satisfies the overlap predicate. -/
theorem checkForConflicts_iff (store : List Booking) (v : Nat)
    (s e : Nat) (ex : Option Nat) :
    (checkForConflicts store (some v) s e ex = true ↔
      ∃ r ∈ store, r.venueId = some v ∧ (∀ i, ex = some i → r.id ≠ i) ∧
        s < r.endDateTime ∧ e > r.startDateTime) ∧
    (∀ a b : Nat, s = b ∨ e = a → overlaps ⟨s, e⟩ ⟨a, b⟩ = false) := by
  constructor
  · simp only [checkForConflicts, decide_eq_true_eq, List.length_pos,
      ne_eq, List.filter_eq_nil_iff, not_forall]
    constructor
    · rintro ⟨r, hr, hp⟩
      simp only [not_not, Bool.and_eq_true, beq_iff_eq, overlaps,
        gt_iff_lt, decide_eq_true_eq] at hp
      refine ⟨r, hr, hp.1.1, ?_, hp.1.2.1, hp.1.2.2⟩
      intro i hi
      subst hi
      simpa using hp.2
    · rintro ⟨r, hr, hv, hex, h1, h2⟩
      refine ⟨r, hr, ?_⟩
      simp only [not_not, Bool.and_eq_true, beq_iff_eq, overlaps,
        gt_iff_lt, decide_eq_true_eq]
      refine ⟨⟨hv, h1, h2⟩, ?_⟩
      cases ex with
      | none => simp
      | some i => simpa using hex i rfl
  · intro a b hab
    rcases hab with h | h <;> subst h <;> simp [overlaps]

/-- C4: an owner entry is never removed nor demoted: when `userId` holds the
owner role, `removeMember` returns `false` with the group unchanged, and
`updateMemberRole` to any role other than `'owner'` returns `false` with the
group unchanged. -/
theorem owner_never_removed_nor_demoted (g : Group) (u : Nat)
    (newRole : String) (how : isOwner g u = true) (hne : newRole ≠ "owner") :
    removeMember g u = (g, false) ∧
    updateMemberRole g u newRole = (g, false) := by
  have hm : isMember g u = true := by
    simp only [isOwner, List.any_eq_true, Bool.and_eq_true, beq_iff_eq] at how
    obtain ⟨m, hmem, h1, _⟩ := how
    simp only [isMember, List.any_eq_true, beq_iff_eq]
    exact ⟨m, hmem, h1⟩
  refine ⟨?_, ?_⟩
  · simp [removeMember, hm, how]
  · simp [updateMemberRole, hm, how, hne]

/-- Witness for C4 at a concrete one-member group. -/
theorem owner_never_removed_nor_demoted_witness :
    removeMember ⟨[⟨7, "owner"⟩]⟩ 7 = (⟨[⟨7, "owner"⟩]⟩, false) ∧
    updateMemberRole ⟨[⟨7, "owner"⟩]⟩ 7 "member" = (⟨[⟨7, "owner"⟩]⟩, false) :=
  owner_never_removed_nor_demoted ⟨[⟨7, "owner"⟩]⟩ 7 "member"
    (by decide) (by decide)

/-- The four occurrences produced in the C5 scenario: base start Tuesday
1970-01-06 18:00 (minute 8280, weekday 2), base end 20:00 (8400), pattern
weekly on weekday 2 with interval 1 ending 28 days after the base, window
equal to the pattern's span. -/
def c5occs : List Occurrence :=
  [⟨1, 18360, 18480⟩, ⟨2, 28440, 28560⟩, ⟨3, 38520, 38640⟩, ⟨4, 48600, 48720⟩]

/-- C5: weekly expansion with `dayOfWeek = 2`, `interval = 1`,
`endDate = base + 28` days over a 2-hour base produces exactly 4 occurrences,
one per week (starts 7 days apart beginning one week after the base), each
lasting `baseEnd - baseStart = 120` minutes, each on weekday 2. -/
theorem expand_weekly_four_occurrences :
    expand ⟨.weekly, some 2, 1, 8280 + 28 * 1440⟩ 8280 8400 8280 (8280 + 28 * 1440) =
      .ok c5occs ∧
    c5occs.length = 4 ∧
    c5occs.map Occurrence.start =
      [8280 + 7 * 1440, 8280 + 14 * 1440, 8280 + 21 * 1440, 8280 + 28 * 1440] ∧
    (∀ o ∈ c5occs, o.stop - o.start = 8400 - 8280 ∧ weekday o.start = 2) :=
  ⟨rfl, by decide⟩

/-- C6: an invalid pattern — non-positive `interval`, or missing `dayOfWeek`
for weekly/biweekly, or `endDate` before the base start — is rejected with
`InvalidPattern`; no occurrences are produced. -/
theorem expand_invalid_pattern (p : RecurrencePattern)
    (baseStart baseEnd windowStart windowEnd : Nat)
    (h : p.interval < 1 ∨
      ((p.frequency = .weekly ∨ p.frequency = .biweekly) ∧ p.dayOfWeek = none) ∨
      p.endDate < baseStart) :
    expand p baseStart baseEnd windowStart windowEnd =
      .error .invalidPattern := by
  have hv : validPattern p baseStart = false := by
    rcases h with h | ⟨hf, hd⟩ | h
    · simp [validPattern, show ¬(1 ≤ p.interval) by omega]
    · rcases hf with hf | hf <;> simp [validPattern, hf, hd]
    · simp [validPattern, show ¬(baseStart ≤ p.endDate) by omega]
  simp [expand, hv]

/-- Witness for C6: an `interval = 0` weekly pattern is rejected. -/
theorem expand_invalid_pattern_witness :
    expand ⟨.weekly, some 2, 0, 48600⟩ 8280 8400 8280 48600 =
      .error .invalidPattern :=
  expand_invalid_pattern ⟨.weekly, some 2, 0, 48600⟩ 8280 8400 8280 48600
    (Or.inl (by decide))

/-- C7: `expand` is deterministic and restartable — two calls with identical
arguments produce identical sequences of occurrence intervals (the model is a
pure function of its inputs with no retained cursor). -/
theorem expand_deterministic (p p' : RecurrencePattern)
    (bs bs' be be' ws ws' we we' : Nat)
    (h : p = p' ∧ bs = bs' ∧ be = be' ∧ ws = ws' ∧ we = we') :
    expand p bs be ws we = expand p' bs' be' ws' we' := by
  obtain ⟨h1, h2, h3, h4, h5⟩ := h
  subst h1 h2 h3 h4 h5
  rfl

/-- Witness for C7 at the C5 scenario's arguments. -/
theorem expand_deterministic_witness :
    expand ⟨.weekly, some 2, 1, 48600⟩ 8280 8400 8280 48600 =
      expand ⟨.weekly, some 2, 1, 48600⟩ 8280 8400 8280 48600 :=
  expand_deterministic ⟨.weekly, some 2, 1, 48600⟩ ⟨.weekly, some 2, 1, 48600⟩
    8280 8280 8400 8400 8280 8280 48600 48600 ⟨rfl, rfl, rfl, rfl, rfl⟩

/-- Every interval produced by `intersectTwo` is non-empty and lies inside
one interval of each input list. -/
theorem intersectTwo_mem (xs ys : List TimeInterval) :
    ∀ z ∈ intersectTwo xs ys,
      z.start < z.stop ∧
      (∃ a ∈ xs, a.start ≤ z.start ∧ z.stop ≤ a.stop) ∧
      (∃ b ∈ ys, b.start ≤ z.start ∧ z.stop ≤ b.stop) := by
  induction xs, ys using intersectTwo.induct with
  | case1 ys => intro z hz; simp [intersectTwo] at hz
  | case2 a as => intro z hz; simp [intersectTwo] at hz
  | case3 a as b bs s e hse ih1 ih2 =>
    intro z hz
    have hlt : a.start ⊔ b.start < a.stop ⊓ b.stop := hse
    by_cases hab : a.stop ≤ b.stop
    · simp only [intersectTwo, if_pos hlt, if_pos hab] at hz
      rcases List.mem_cons.mp hz with hz | hz
      · subst hz
        exact ⟨hlt, ⟨a, List.mem_cons_self a as, le_max_left _ _, min_le_left _ _⟩,
          ⟨b, List.mem_cons_self b bs, le_max_right _ _, min_le_right _ _⟩⟩
      · obtain ⟨hv, ⟨a', ha', h1, h2⟩, hb⟩ := ih1 z hz
        exact ⟨hv, ⟨a', List.mem_cons_of_mem a ha', h1, h2⟩, hb⟩
    · simp only [intersectTwo, if_pos hlt, if_neg hab] at hz
      rcases List.mem_cons.mp hz with hz | hz
      · subst hz
        exact ⟨hlt, ⟨a, List.mem_cons_self a as, le_max_left _ _, min_le_left _ _⟩,
          ⟨b, List.mem_cons_self b bs, le_max_right _ _, min_le_right _ _⟩⟩
      · obtain ⟨hv, ha, ⟨b', hb', h3, h4⟩⟩ := ih2 z hz
        exact ⟨hv, ha, ⟨b', List.mem_cons_of_mem b hb', h3, h4⟩⟩
  | case4 a as b bs s e hse ih1 ih2 =>
    intro z hz
    have hlt : ¬(a.start ⊔ b.start < a.stop ⊓ b.stop) := hse
    by_cases hab : a.stop ≤ b.stop
    · simp only [intersectTwo, if_neg hlt, if_pos hab] at hz
      obtain ⟨hv, ⟨a', ha', h1, h2⟩, hb⟩ := ih1 z hz
      exact ⟨hv, ⟨a', List.mem_cons_of_mem a ha', h1, h2⟩, hb⟩
    · simp only [intersectTwo, if_neg hlt, if_neg hab] at hz
      obtain ⟨hv, ha, ⟨b', hb', h3, h4⟩⟩ := ih2 z hz
      exact ⟨hv, ha, ⟨b', List.mem_cons_of_mem b hb', h3, h4⟩⟩

/-- `intersectTwo` preserves the sorted-disjoint normal form. -/
theorem intersectTwo_sorted :
    ∀ (xs ys : List TimeInterval), SortedFree xs → SortedFree ys →
      SortedFree (intersectTwo xs ys) := by
  intro xs ys
  induction xs, ys using intersectTwo.induct with
  | case1 ys => intro _ _; simp [intersectTwo, SortedFree]
  | case2 a as => intro _ _; simp [intersectTwo, SortedFree]
  | case3 a as b bs s e hse ih1 ih2 =>
    intro hx hy
    have hlt : a.start ⊔ b.start < a.stop ⊓ b.stop := hse
    by_cases hab : a.stop ≤ b.stop
    · simp only [intersectTwo, if_pos hlt, if_pos hab]
      simp only [SortedFree, List.pairwise_cons]
      refine ⟨?_, ih1 (List.Pairwise.of_cons hx) hy⟩
      intro w hw
      obtain ⟨_, ⟨a', ha', h1, _⟩, _⟩ := intersectTwo_mem as (b :: bs) w hw
      have h2 := (List.pairwise_cons.mp hx).1 a' ha'
      calc a.stop ⊓ b.stop ≤ a.stop := min_le_left _ _
        _ ≤ a'.start := h2
        _ ≤ w.start := h1
    · simp only [intersectTwo, if_pos hlt, if_neg hab]
      simp only [SortedFree, List.pairwise_cons]
      refine ⟨?_, ih2 hx (List.Pairwise.of_cons hy)⟩
      intro w hw
      obtain ⟨_, _, ⟨b', hb', h3, _⟩⟩ := intersectTwo_mem (a :: as) bs w hw
      have h4 := (List.pairwise_cons.mp hy).1 b' hb'
      calc a.stop ⊓ b.stop ≤ b.stop := min_le_right _ _
        _ ≤ b'.start := h4
        _ ≤ w.start := h3
  | case4 a as b bs s e hse ih1 ih2 =>
    intro hx hy
    have hlt : ¬(a.start ⊔ b.start < a.stop ⊓ b.stop) := hse
    by_cases hab : a.stop ≤ b.stop
    · simp only [intersectTwo, if_neg hlt, if_pos hab]
      exact ih1 (List.Pairwise.of_cons hx) hy
    · simp only [intersectTwo, if_neg hlt, if_neg hab]
      exact ih2 hx (List.Pairwise.of_cons hy)

/-- Folding `intersectTwo` over sorted-disjoint member lists keeps the
accumulator sorted-disjoint with non-empty intervals. -/
theorem foldl_intersectTwo_sorted (ms : List (List TimeInterval)) :
    ∀ acc, SortedFree acc → (∀ i ∈ acc, i.start < i.stop) →
      (∀ m ∈ ms, SortedFree m) →
      SortedFree (ms.foldl intersectTwo acc) ∧
      ∀ z ∈ ms.foldl intersectTwo acc, z.start < z.stop := by
  induction ms with
  | nil => intro acc h1 h2 _; exact ⟨h1, h2⟩
  | cons m ms ih =>
    intro acc h1 _ hm
    simp only [List.foldl_cons]
    refine ih (intersectTwo acc m)
      (intersectTwo_sorted _ _ h1 (hm m (List.mem_cons_self _ _))) ?_ ?_
    · intro z hz; exact (intersectTwo_mem _ _ z hz).1
    · intro m' hm'; exact hm m' (List.mem_cons_of_mem _ hm')

/-- Helper for C8: over members whose free-interval lists are in normal form
(sorted, disjoint, non-empty intervals) the intersection is ordered by start
time ascending. -/
theorem intersectAvailability_sorted (members : List (List TimeInterval))
    (mins : Nat)
    (h : ∀ m ∈ members, SortedFree m ∧ ∀ i ∈ m, i.start < i.stop) :
    (intersectAvailability members mins).Pairwise
      fun u w => u.start ≤ w.start := by
  cases members with
  | nil => simp [intersectAvailability]
  | cons m ms =>
    obtain ⟨hs, hv⟩ := h m (List.mem_cons_self _ _)
    obtain ⟨hsf, hval⟩ := foldl_intersectTwo_sorted ms m hs hv
      (fun m' hm' => (h m' (List.mem_cons_of_mem _ hm')).1)
    simp only [intersectAvailability]
    have hsub : List.Sublist ((ms.foldl intersectTwo m).filter
        fun i => mins ≤ i.stop - i.start) (ms.foldl intersectTwo m) :=
      List.filter_sublist _
    have hp := hsf.sublist hsub
    refine hp.imp_of_mem ?_
    intro u w hu _ huw
    have := hval u (List.mem_of_mem_filter hu)
    omega

/-- C8: intersecting member availabilities Monday 18:00–21:00 and Monday
19:00–22:00 (1970-01-05, minutes since the epoch) with a 60-minute minimum
yields exactly Monday 19:00–21:00; in general the result is ordered by start
time ascending over members in normal form, and an overlap-free input yields
the empty list as a valid result. -/
theorem intersectAvailability_spec :
    intersectAvailability [[⟨6840, 7020⟩], [⟨6900, 7080⟩]] 60 =
      [⟨6900, 7020⟩] ∧
    (∀ members mins,
      (∀ m ∈ members, SortedFree m ∧ ∀ i ∈ m, i.start < i.stop) →
      (intersectAvailability members mins).Pairwise
        fun u w => u.start ≤ w.start) ∧
    intersectAvailability [[⟨6840, 6900⟩], [⟨6900, 7080⟩]] 60 = [] := by
  refine ⟨by simp [intersectAvailability, intersectTwo],
    intersectAvailability_sorted,
    by simp [intersectAvailability, intersectTwo]⟩

/-- Witness for C8's general ordering conjunct at the concrete two-member
input. -/
theorem intersectAvailability_spec_witness :
    (intersectAvailability [[⟨6840, 7020⟩], [⟨6900, 7080⟩]] 60).Pairwise
      (fun u w => u.start ≤ w.start) :=
  intersectAvailability_spec.2.1 [[⟨6840, 7020⟩], [⟨6900, 7080⟩]] 60
    (by simp [SortedFree])

/-- C9: `rankCandidates` returns at most `limit` slots; every returned slot
is the earliest-fit window of the preferred duration inside a sufficiently
long common interval; the returned order is that of the eligible intervals
sorted by length descending with start ascending as tie-break; and over a
1-hour and a 3-hour common interval with 60-minute slots and limit 2, the
3-hour-derived slot comes first. -/
theorem rankCandidates_spec :
    (∀ ci d lim, (rankCandidates ci d lim).length ≤ lim) ∧
    (∀ ci d lim, ∀ z ∈ rankCandidates ci d lim,
      ∃ i ∈ ci, d ≤ i.stop - i.start ∧ z.start = i.start ∧
        z.stop = i.start + d) ∧
    (∀ ci d lim, ∃ ranked : List TimeInterval,
      List.Perm ranked (ci.filter fun i => d ≤ i.stop - i.start) ∧
      List.Sorted rankBefore ranked ∧
      rankCandidates ci d lim =
        (ranked.map fun i => ⟨i.start, i.start + d⟩).take lim) ∧
    rankCandidates [⟨1000, 1060⟩, ⟨2000, 2180⟩] 60 2 =
      [⟨2000, 2060⟩, ⟨1000, 1060⟩] := by
  refine ⟨?_, ?_, ?_, by decide⟩
  · intro ci d lim
    simp only [rankCandidates]
    exact List.length_take_le _ _
  · intro ci d lim z hz
    simp only [rankCandidates] at hz
    have hz1 := List.mem_of_mem_take hz
    obtain ⟨i, hi, rfl⟩ := List.mem_map.mp hz1
    have hi2 : i ∈ ci.filter fun i => d ≤ i.stop - i.start :=
      (List.perm_insertionSort rankBefore _).subset hi
    have hmem := List.mem_filter.mp hi2
    exact ⟨i, hmem.1, by simpa using hmem.2, rfl, rfl⟩
  · intro ci d lim
    refine ⟨(ci.filter fun i => d ≤ i.stop - i.start).insertionSort rankBefore,
      List.perm_insertionSort _ _, List.sorted_insertionSort _ _, ?_⟩
    rfl

/-- Witness for C9's bound conjunct at the concrete two-interval input. -/
theorem rankCandidates_spec_witness :
    (rankCandidates [⟨1000, 1060⟩, ⟨2000, 2180⟩] 60 2).length ≤ 2 :=
  rankCandidates_spec.1 [⟨1000, 1060⟩, ⟨2000, 2180⟩] 60 2

/-- Witness for C1's touching-endpoint conjunct at a concrete interval
pair. -/
theorem checkForConflicts_iff_witness :
    overlaps ⟨100, 200⟩ ⟨200, 300⟩ = false :=
  (checkForConflicts_iff [] 1 100 200 none).2 200 300 (Or.inr rfl)

/-- Helper for C10: the sequence of `userId`s after `addAttendee` is unchanged
when the user was already present, and gains exactly a final entry otherwise. -/
theorem addAttendee_map_userId (attendees : List Attendee) (u : Nat)
    (s : String) (now : Nat) :
    (addAttendee attendees u s now).map Attendee.userId =
      if u ∈ attendees.map Attendee.userId then attendees.map Attendee.userId
      else attendees.map Attendee.userId ++ [u] := by
  induction attendees with
  | nil => simp [addAttendee]
  | cons a rest ih =>
    by_cases hau : a.userId = u
    · simp [addAttendee, hau]
    · have hb : (a.userId == u) = false := by simp [hau]
      simp only [addAttendee, hb, Bool.false_eq_true, if_false, List.map_cons, ih,
        List.mem_cons]
      by_cases hin : u ∈ rest.map Attendee.userId
      · simp [hin, Ne.symm hau]
      · simp [hin, Ne.symm hau]

/-- C10: `addAttendee` preserves per-`userId` uniqueness of the attendees
array: starting from a duplicate-free array, the result is duplicate-free,
with the `userId` sequence unchanged when the user was already an attendee
(in-place update) and extended by exactly one final entry otherwise. -/
theorem addAttendee_unique (attendees : List Attendee) (u : Nat) (s : String)
    (now : Nat) (h : (attendees.map Attendee.userId).Nodup) :
    ((addAttendee attendees u s now).map Attendee.userId).Nodup ∧
    (addAttendee attendees u s now).map Attendee.userId =
      (if u ∈ attendees.map Attendee.userId then attendees.map Attendee.userId
       else attendees.map Attendee.userId ++ [u]) := by
  refine ⟨?_, addAttendee_map_userId attendees u s now⟩
  rw [addAttendee_map_userId attendees u s now]
  by_cases hin : u ∈ attendees.map Attendee.userId
  · simpa [hin] using h
  · simp only [hin, if_false]
    refine List.Nodup.append h (List.nodup_singleton u) ?_
    intro x hx hxu
    simp only [List.mem_singleton] at hxu
    exact hin (hxu ▸ hx)

/-- Witness for C10 at a concrete two-entry attendee list. -/
theorem addAttendee_unique_witness :
    ((addAttendee [⟨1, "pending", none⟩, ⟨2, "confirmed", some 5⟩]
        2 "declined" 9).map Attendee.userId).Nodup ∧
    (addAttendee [⟨1, "pending", none⟩, ⟨2, "confirmed", some 5⟩]
        2 "declined" 9).map Attendee.userId =
      (if 2 ∈ ([⟨1, "pending", none⟩, ⟨2, "confirmed", some 5⟩] :
          List Attendee).map Attendee.userId then
        ([⟨1, "pending", none⟩, ⟨2, "confirmed", some 5⟩] :
          List Attendee).map Attendee.userId
       else ([⟨1, "pending", none⟩, ⟨2, "confirmed", some 5⟩] :
          List Attendee).map Attendee.userId ++ [2]) :=
  addAttendee_unique [⟨1, "pending", none⟩, ⟨2, "confirmed", some 5⟩]
    2 "declined" 9 (by decide)

end MusicJam
